import Mathlib

/-!
Verification of `orangecontrib/single_cell/widgets/owtsne.py`.

This file shallowly embeds the parts of the widget module that carry actual
behaviour: the module-level name-renaming helpers (`get_indices`,
`get_unique_names`), the `update_loop` generator inside `OWtSNE.__start`, the
widget's runtime-state bookkeeping (`__set_update_loop`, `start`, `stop`,
`_clear`, `__next_step`, `_toggle_run`, `_initialize`), and the
`OWMDSGraph` size/axis code.  External library calls (Orange's TSNE and PCA
projections, the scatter-plot base class, Qt) are modelled as opaque
parameters or as events, never reimplemented.
-/

/-! ### Module-level helpers: `get_indices` and `get_unique_names`

Python strings are modelled as `List Char`.  The source builds the regex
`RE_FIND_INDEX = r"(^{} \()(\d{1,})(\)$)"` by interpolating the *unescaped*
proposed name into the pattern, so every regex metacharacter occurring in a
proposed name is live: `.` is a non-newline wildcard, a quantifier such as
`*` acts on the preceding atom, and an ill-formed name (say one containing
a lone `(`) makes pattern compilation raise `re.error`.  Independently of
the name, Python's `\d` also accepts non-ASCII digits and its `$` also
matches just before one trailing newline.  The embedding below implements
only the fragment with at most the `.` metacharacter and ASCII digits and
no trailing-newline forgiveness — enough to exhibit, in the counterexample
below, that the matching is not plain string equality.  Accordingly, the
general characterization theorem `get_unique_names_spec` is *restricted* to
proposed names free of regex metacharacters and to existing names made of
newline-free ASCII characters: on that fragment the compiled pattern
provably matches exactly the strings `name (digits)`, so the model and the
program agree there; the wider metacharacter behaviour, `re.error` paths,
non-ASCII digits and the `$`-before-newline case are outside the model and
outside that theorem's scope.
-/

abbrev PyStr := List Char

/-- Match the interpolated name part of the pattern against a prefix of `x`,
for the modelled fragment in which every name character is a regex literal
except `.`, which matches any character other than a newline.  Returns the
unmatched remainder.  Names containing other metacharacters (`*`, `(`, `\`,
…) behave differently in Python and are outside this model; the
characterization theorem below therefore hypothesises metacharacter-free
proposed names, on which this matcher degenerates to string equality
exactly as the compiled pattern does. -/
def patPre : PyStr → PyStr → Option PyStr
  | [], x => some x
  | _ :: _, [] => none
  | p :: ps, c :: cs =>
    if (p = '.' ∧ c ≠ '\n') ∨ p = c then patPre ps cs else none

/-- Value of a nonempty decimal digit string, as Python's `int` computes it
(leading zeros allowed). -/
def decValue (ds : PyStr) : Nat :=
  ds.foldl (fun n c => n * 10 + (c.toNat - 48)) 0

/-- One application of the compiled `RE_FIND_INDEX.format(name)` regex to a
whole string `x` (the regex is anchored by `^` and `$`, so `re.finditer`
yields at most one match): `x` must consist of the name part, a space, an
opening parenthesis, one or more digits `ds`, and a closing parenthesis;
the extracted group is `int(ds)`.  Digits are modelled as ASCII (Python's
`\d` also accepts other Unicode digits) and `$` as the very end of the
string (Python's `$` also matches before one trailing newline); both gaps
are fenced off by the ASCII/newline-free hypothesis of the
characterization theorem. -/
def matchIndex (name x : PyStr) : Option Nat :=
  match patPre name x with
  | none => none
  | some rest =>
    match rest with
    | sp :: op :: rest2 =>
      let ds := rest2.dropLast
      if sp = ' ' ∧ op = '(' ∧ rest2.getLast? = some ')' ∧ ds ≠ [] ∧
          ds.all Char.isDigit
      then some (decValue ds) else none
    | _ => none

/-- `get_indices(names, name)`: list of indices which occur in a names list
for a given name (owtsne.py lines 28-36). -/
def get_indices (names : List PyStr) (name : PyStr) : List Nat :=
  names.filterMap (fun x => matchIndex name x)

/-- Python's `max(l, default=d)`: the maximum element of `l`, or `d` when
`l` is empty.  The default is ignored for a nonempty list. -/
def pymax (l : List Nat) (default : Nat) : Nat :=
  match l with
  | [] => default
  | a :: as => as.foldl max a

/-- Python's `"{} ({})".format(name, i)`. -/
def fmtName (name : PyStr) (i : Nat) : PyStr :=
  name ++ [' ', '('] ++ Nat.toDigits 10 i ++ [')']

/-- `get_unique_names(names, proposed)` (owtsne.py lines 39-52): if any
proposed name occurs verbatim among `names`, every proposed name is renamed
with one common index `max_index + 1`, where `max_index` is the maximum over
the proposed names of `max(get_indices(names, name), default=1)`;
otherwise the proposed list is returned unchanged. -/
def get_unique_names (names proposed : List PyStr) : List PyStr :=
  if (proposed.filter (fun n => decide (n ∈ names))).length ≠ 0 then
    let max_index :=
      pymax (proposed.map (fun n => pymax (get_indices names n) 1)) 1
    proposed.map (fun n => fmtName n (max_index + 1))
  else proposed

/-- Claim-side predicate, following the claim's words: index `k` occurs for
`name` when some existing name is exactly `name (k)` (the digits denoting
`k` in decimal). -/
def IndexOccurs (names : List PyStr) (name : PyStr) (k : Nat) : Prop :=
  ∃ ds : PyStr, ds ≠ [] ∧ ds.all Char.isDigit = true ∧ decValue ds = k ∧
    (name ++ [' ', '('] ++ ds ++ [')']) ∈ names

/-- Relational reading of the modelled matcher: index `k` occurs for
`name` when some existing name decomposes as a body matching `name` in the
modelled fragment (characters literal except `.`, a non-newline wildcard)
followed by ` (`, digits denoting `k`, and `)`.  For metacharacter-free
names this coincides with `IndexOccurs` (proved below). -/
def PatOccurs (names : List PyStr) (name : PyStr) (k : Nat) : Prop :=
  ∃ x ∈ names, ∃ ds : PyStr, ds ≠ [] ∧ ds.all Char.isDigit = true ∧
    decValue ds = k ∧
    ∃ body, x = body ++ [' ', '('] ++ ds ++ [')'] ∧
      List.Forall₂ (fun pc xc => (pc = '.' ∧ xc ≠ '\n') ∨ pc = xc) name body

/-- Characters that are metacharacters (or escape introducers) when
interpolated verbatim into a Python regex.  A proposed name containing
none of these compiles into a pattern that matches the name's characters
literally. -/
abbrev regexSpecial (c : Char) : Prop :=
  c ∈ ['.', '^', '$', '*', '+', '?', '\x7b', '\x7d', '[', ']',
       '(', ')', '|', '\\']

/-! ### The `update_loop` generator (owtsne.py lines 412-438)

The generator repeatedly calls `Orange.projection.TSNE` and yields the
resulting fit's `embedding_` attribute together with a progress ratio.  The
external projection is abstracted: `tsne` stands for constructing the
`TSNE` projector with the given parameters and calling it on `X`, and
`embedding_` for reading the fit's attribute.  The generator is modelled
with a fuel argument (`max_iter` suffices, as proved below), producing the
list of its yields in order. -/

/-- Keyword arguments passed to `Orange.projection.TSNE` by the loop. -/
structure TSNEParams where
  n_components : Nat
  perplexity : Nat
  n_iter : Nat
  init : String
deriving DecidableEq, Repr

/-- Pure skeleton of the loop: the successive `(step_iter, iterations_done)`
pairs, driven by `step_iter = min (max_iter - iterations_done) step`. -/
def stepsGo (mi st : Nat) : Nat → Nat → List (Nat × Nat)
  | 0, _ => []
  | fuel + 1, d0 =>
    let si := min (mi - d0) st
    let d := d0 + si
    if mi ≤ d then [(si, d)] else (si, d) :: stepsGo mi st fuel d

/-- The `(step_iter, iterations_done)` pairs of a run of the loop from
`iterations_done = 0`. -/
def stepsList (mi st : Nat) : List (Nat × Nat) :=
  stepsGo mi st mi 0

/-- Relational reading of the loop arithmetic: starting from
`iterations_done = a`, each pair takes `step_iter = min (mi - a) st` and
advances `iterations_done` to `a + step_iter`. -/
def stepsChainFrom (mi st : Nat) : Nat → List (Nat × Nat) → Prop
  | _, [] => True
  | a, (si, d) :: rest =>
    si = min (mi - a) st ∧ d = a + si ∧ stepsChainFrom mi st d rest

/-- Fuelled model of the generator body: while not done, build the `TSNE`
projector with `n_components=2`, the widget's perplexity, `n_iter =
step_iter` and `init="pca"`, call it on `X`, read `embedding_`, and yield it
with `iterations_done / max_iter`. -/
def updateLoopGo {α γ β : Type} (tsne : TSNEParams → α → γ) (embedding_ : γ → β)
    (X : α) (perplexity mi st : Nat) : Nat → Nat → List (β × ℚ)
  | 0, _ => []
  | fuel + 1, iterations_done =>
    let step_iter := min (mi - iterations_done) st
    let tsnefit := tsne ⟨2, perplexity, step_iter, "pca"⟩ X
    let d := iterations_done + step_iter
    let out := (embedding_ tsnefit, (d : ℚ) / (mi : ℚ))
    if mi ≤ d then [out]
    else out :: updateLoopGo tsne embedding_ X perplexity mi st fuel d

/-- `update_loop(X, max_iter, step, embedding)`: the list of yields of the
generator.  The trailing `_embedding` argument mirrors the source's unused
`embedding` parameter (it is overwritten before first use and never read). -/
def update_loop {α γ β : Type} (tsne : TSNEParams → α → γ) (embedding_ : γ → β)
    (perplexity : Nat) (X : α) (max_iter step : Nat) (_embedding : β) :
    List (β × ℚ) :=
  updateLoopGo tsne embedding_ X perplexity max_iter step max_iter 0

/-! ### Widget runtime state (OWtSNE)

The widget's runtime bookkeeping is modelled as a record.  Qt objects are
reduced to the observable facts the methods set on them: the timer's
active flag, the run button's label, the progress bar's status, the
blocking flag and the status message.  Generators are identified by tokens
(`Nat`); a list `closed` records, newest first, the tokens of generators
whose `close()` was called.  Calls to `commit`/`unconditional_commit` and
`_update_plot` are counted.  Embeddings and effective matrices are opaque
tokens; input tables carry only the datum the code inspects (the number of
domain attributes). -/

/-- Runtime state constants of `OWtSNE` (`Running, Finished, Waiting = 1, 2, 3`). -/
inductive RunState where
  | Running
  | Finished
  | Waiting
deriving DecidableEq, Repr

/-- Observable status of the widget's progress bar. -/
inductive PBStat where
  | empty
  | inited
  | finished
  | at_ (v : ℚ)
deriving DecidableEq, Repr

/-- An input `Orange.data.Table`, reduced to an identity token and the
number of attributes in its domain. -/
structure PyTable where
  n_attrs : Nat
  tid : Nat
deriving DecidableEq, Repr

/-- Observable widget state. -/
structure WState where
  gen : Option Nat
  next_gen : Nat
  closed : List Nat
  rstate : RunState
  blocking : Bool
  status_msg : String
  button_label : String
  pb : PBStat
  timer_on : Bool
  err_not_enough_rows : Bool
  err_no_attributes : Bool
  err_out_of_memory : Bool
  err_optimization : Option String
  embedding : Option Nat
  effective_matrix : Option Nat
  data : Option PyTable
  signal_data : Option PyTable
  commit_count : Nat
  ucommit_count : Nat
  plot_draws : Nat
  max_iter : Nat
  perplexity : Nat
  pca_components : Nat
deriving DecidableEq, Repr

/-- `OWtSNE.__set_update_loop` (lines 441-477): an installed generator is
closed first (with `progressBarFinished`); installing a generator blocks
the widget, re-inits the progress bar, sets the status message and button
label, moves to `Running` and starts the timer; clearing unblocks, clears
the status message, relabels the button `Start`, moves to `Finished` and
stops the timer. -/
def set_update_loop (s : WState) (loop : Option Nat) : WState :=
  let s :=
    match s.gen with
    | some g => { s with closed := g :: s.closed, gen := none, pb := PBStat.finished }
    | none => s
  let s := { s with gen := loop }
  match loop with
  | some _ =>
    { s with blocking := true, pb := PBStat.inited, status_msg := "Running",
             button_label := "Stop", rstate := RunState.Running, timer_on := true }
  | none =>
    { s with blocking := false, status_msg := "",
             button_label := "Start", rstate := RunState.Finished, timer_on := false }

/-- `OWtSNE.stop` (lines 396-398). -/
def stopW (s : WState) : WState :=
  if s.rstate = RunState.Running then set_update_loop s none else s

/-- `OWtSNE._clear` (lines 345-347). -/
def clearW (s : WState) : WState :=
  { set_update_loop s none with rstate := RunState.Waiting }

/-- `OWtSNE.__start` (lines 400-439): builds the `update_loop` generator
(modelled by a fresh token; its yields are modelled by `update_loop`
above, with `step_size` forced to `max_iter` by lines 406-410), installs
it, and re-inits the progress bar. -/
def startPriv (s : WState) : WState :=
  let g := s.next_gen
  let s := set_update_loop { s with next_gen := g + 1 } (some g)
  { s with pb := PBStat.inited }

/-- `OWtSNE.start` (lines 386-394). -/
def startW (s : WState) : WState :=
  if s.rstate = RunState.Running then s
  else if s.rstate = RunState.Finished then startPriv s
  else if s.rstate = RunState.Waiting ∧ s.effective_matrix ≠ none then startPriv s
  else s

/-- `OWtSNE._toggle_run` (lines 379-384); `_invalidate_output` is `commit`. -/
def toggle_run (s : WState) : WState :=
  if s.rstate = RunState.Running then
    let s := stopW s
    { s with commit_count := s.commit_count + 1 }
  else startW s

/-- Outcome of `next(self.__update_loop)` as seen by `__next_step`: a
yielded `(embedding, progress)` pair, exhaustion (`StopIteration`), a
`MemoryError`, or any other exception with its text. -/
inductive AdvResult where
  | yielded (emb : Nat) (progress : ℚ)
  | stopped
  | memErr
  | raised (msg : String)
deriving DecidableEq, Repr

/-- `OWtSNE.__next_step` (lines 479-509): does nothing when no loop is
installed; otherwise clears the `out_of_memory` and `optimization_error`
messages, advances the generator, and dispatches on the outcome exactly as
the `try/except/else` does. -/
def nextStep (s : WState) (adv : AdvResult) : WState :=
  match s.gen with
  | none => s
  | some _ =>
    let s := { s with err_out_of_memory := false, err_optimization := none }
    match adv with
    | AdvResult.stopped =>
      let s := set_update_loop s none
      let s := { s with ucommit_count := s.ucommit_count + 1 }
      { s with plot_draws := s.plot_draws + 1 }
    | AdvResult.memErr =>
      set_update_loop { s with err_out_of_memory := true } none
    | AdvResult.raised m =>
      set_update_loop { s with err_optimization := some m } none
    | AdvResult.yielded e p =>
      let s := { s with pb := PBStat.at_ (100 * p), embedding := some e }
      let s := { s with plot_draws := s.plot_draws + 1 }
      { s with timer_on := true }

/-- Widget state right after `OWtSNE.__init__` (lines 171-266) finishes:
the runtime fields are set at lines 190-196, then the trailing
`self._initialize()` call runs with no input data, so it only clears
(`_clear` leaves the button relabelled `Start` and the state `Waiting`).
Settings hold their declared defaults (lines 144-147). -/
def initState : WState :=
  { gen := none, next_gen := 0, closed := [], rstate := RunState.Waiting,
    blocking := false, status_msg := "", button_label := "Start",
    pb := PBStat.empty, timer_on := false,
    err_not_enough_rows := false, err_no_attributes := false,
    err_out_of_memory := false, err_optimization := none,
    embedding := none, effective_matrix := none, data := none,
    signal_data := none, commit_count := 0, ucommit_count := 0,
    plot_draws := 0, max_iter := 1000, perplexity := 30,
    pca_components := 10 }

/-- `OWtSNE._initialize` (lines 352-377): clear everything; return if there
is no input data; otherwise adopt the input as `data` and, when its domain
has attributes, fit the external `Orange.projection.PCA` with
`n_components = pca_components` on the data (`pca`) and apply the fitted
model to the same data (`papply`) to obtain `effective_matrix`; when the
domain has no attributes, show the `no_attributes` error and return.
`pca` and `papply` abstract the external projection library. -/
def initializeW (pca : Nat → PyTable → Nat) (papply : Nat → PyTable → Nat)
    (s : WState) : WState :=
  let s := clearW s
  let s := { s with err_not_enough_rows := false, err_no_attributes := false,
                    err_out_of_memory := false, err_optimization := none,
                    data := none, effective_matrix := none, embedding := none }
  match s.signal_data with
  | none => s
  | some d =>
    let s := { s with data := some d }
    if d.n_attrs ≠ 0 then
      let model := pca s.pca_components d
      { s with effective_matrix := some (papply model d) }
    else
      { s with err_no_attributes := true }

/-- States reachable through the methods named by the invariant claim:
the initial state and closure under `__set_update_loop`, `_clear`,
`start`, `stop`, `__start` and `__next_step` (with any generator outcome). -/
inductive Reach : WState → Prop where
  | init : Reach initState
  | set_loop {s : WState} (l : Option Nat) : Reach s → Reach (set_update_loop s l)
  | clear {s : WState} : Reach s → Reach (clearW s)
  | start {s : WState} : Reach s → Reach (startW s)
  | stop {s : WState} : Reach s → Reach (stopW s)
  | startP {s : WState} : Reach s → Reach (startPriv s)
  | next {s : WState} (adv : AdvResult) : Reach s → Reach (nextStep s adv)

/-! ### OWMDSGraph (lines 55-105)

Construction and rendering are sequences of delegated calls; they are
modelled as event traces.  `compute_sizes` is modelled with sizes in `ℚ`
and `NaN` as a separate constructor; its `Stress` branch evaluates the
free name `stress`, which is neither defined in the module nor imported by
it, so that branch raises a `NameError`. -/

/-- Events a graph method emits, in order. -/
inductive GEvent where
  | base_init (name : String)
  | base_update (attr_x attr_y : String) (reset_view : Bool)
  | hide_axis (loc : String)
  | aspect_locked (r : ℚ)
deriving DecidableEq, Repr

/-- `OWMDSGraph.__init__` (lines 63-67): delegate construction to
`OWScatterPlotGraph`, then hide the left and bottom axes. -/
def graph_init_events (name : String) : List GEvent :=
  [GEvent.base_init name, GEvent.hide_axis "left", GEvent.hide_axis "bottom"]

/-- `OWMDSGraph.update_data` (lines 69-73): delegate to the base class's
`update_data`, then hide the left and bottom axes and lock the aspect
ratio to 1. -/
def update_data_events (attr_x attr_y : String) (reset_view : Bool) : List GEvent :=
  [GEvent.base_update attr_x attr_y reset_view,
   GEvent.hide_axis "left", GEvent.hide_axis "bottom",
   GEvent.aspect_locked 1]

/-- A floating-point size datum: a number or NaN. -/
inductive SizeVal where
  | num (q : ℚ)
  | nan
deriving DecidableEq, Repr

/-- `OWMDSGraph.get_size_index` (lines 75-78): `-2` for the added `Stress`
option, otherwise the base class's result. -/
def get_size_index (attr_size : Option String) (base : Int) : Int :=
  if attr_size = some "Stress" then -2 else base

/-- Replace NaN entries by `minShapeSize - 2`; the flag records whether the
`missing_size` information message is shown (it was cleared on entry). -/
def fixNans (minShapeSize : ℚ) (l : List SizeVal) : List ℚ × Bool :=
  (l.map (fun v => match v with
    | SizeVal.num q => q
    | SizeVal.nan => minShapeSize - 2),
   l.any (fun v => decide (v = SizeVal.nan)))

/-- `OWMDSGraph.compute_sizes` (lines 80-105).  For `size_index = -1` the
sizes are all `point_width`; for `size_index = -2` the code evaluates
`stress(self.master.embedding, self.master.effective_matrix)`, but no
`stress` is defined in or imported by the module, so Python raises
`NameError` before any size is produced; otherwise sizes come from the
scaled data row, and in the non-raising branches NaN entries are replaced
by `MinShapeSize - 2` with the `missing_size` message shown. -/
def compute_sizes (size_index : Int) (n_points : Nat)
    (point_width minShapeSize : ℚ) (scaled_row : List SizeVal) :
    Except String (List ℚ × Bool) :=
  if size_index = -1 then
    Except.ok (fixNans minShapeSize
      (List.replicate n_points (SizeVal.num point_width)))
  else if size_index = -2 then
    Except.error "NameError: name 'stress' is not defined"
  else
    Except.ok (fixNans minShapeSize
      (scaled_row.map (fun v => match v with
        | SizeVal.num q => SizeVal.num (minShapeSize + q * point_width)
        | SizeVal.nan => SizeVal.nan)))

/-! ### Lemmas about the update loop -/

lemma updateLoopGo_eq_stepsGo {α γ β : Type} (tsne : TSNEParams → α → γ)
    (embedding_ : γ → β) (X : α) (p mi st : Nat) :
    ∀ fuel d0, updateLoopGo tsne embedding_ X p mi st fuel d0
      = (stepsGo mi st fuel d0).map
          (fun q => (embedding_ (tsne ⟨2, p, q.1, "pca"⟩ X), (q.2 : ℚ) / (mi : ℚ))) := by
  intro fuel
  induction fuel with
  | zero => intro d0; rfl
  | succ n ih =>
    intro d0
    simp only [updateLoopGo, stepsGo]
    by_cases h : mi ≤ d0 + min (mi - d0) st
    · simp [h]
    · simp [h, ih]

lemma stepsGo_length (mi st : Nat) (hst : 0 < st) :
    ∀ fuel d0, d0 < mi → mi - d0 ≤ fuel →
      (stepsGo mi st fuel d0).length = (mi - d0 + st - 1) / st := by
  intro fuel
  induction fuel with
  | zero => intro d0 h1 h2; omega
  | succ n ih =>
    intro d0 h1 h2
    simp only [stepsGo]
    by_cases h : mi ≤ d0 + min (mi - d0) st
    · have hr : mi - d0 ≤ st := by omega
      have hdiv : (mi - d0 + st - 1) / st = 1 := by
        apply Nat.div_eq_of_lt_le <;> omega
      simp [h, hdiv]
    · have hmin : min (mi - d0) st = st := by omega
      have hlt : st < mi - d0 := by omega
      simp only [h, if_false, List.length_cons]
      rw [ih (d0 + min (mi - d0) st) (by omega) (by omega)]
      have heq : mi - d0 + st - 1 = (mi - (d0 + min (mi - d0) st) + st - 1) + st := by
        omega
      rw [heq, Nat.add_div_right _ hst]

lemma stepsGo_snd_spec (mi st : Nat) (hst : 0 < st) :
    ∀ fuel d0, d0 < mi → mi - d0 ≤ fuel →
      List.Chain (· < ·) d0 ((stepsGo mi st fuel d0).map Prod.snd)
      ∧ (∀ n ∈ (stepsGo mi st fuel d0).map Prod.snd, n ≤ mi)
      ∧ ((stepsGo mi st fuel d0).map Prod.snd).getLast? = some mi := by
  intro fuel
  induction fuel with
  | zero => intro d0 h1 h2; omega
  | succ n ih =>
    intro d0 h1 h2
    simp only [stepsGo]
    by_cases h : mi ≤ d0 + min (mi - d0) st
    · have hd : d0 + min (mi - d0) st = mi := by omega
      simp [h, hd]
      omega
    · have hmin : min (mi - d0) st = st := by omega
      obtain ⟨ihc, ihb, ihl⟩ := ih (d0 + min (mi - d0) st) (by omega) (by omega)
      simp only [h, if_false, List.map_cons]
      refine ⟨List.chain_cons.mpr ⟨by omega, ihc⟩, ?_, ?_⟩
      · intro m hm
        rcases List.mem_cons.mp hm with hm | hm
        · omega
        · exact ihb m hm
      · cases hml : (stepsGo mi st n (d0 + min (mi - d0) st)).map Prod.snd with
        | nil => rw [hml] at ihl; simp at ihl
        | cons b t =>
          rw [hml] at ihl
          rw [List.getLast?_cons_cons, ihl]

lemma stepsGo_chainFrom (mi st : Nat) :
    ∀ fuel d0, stepsChainFrom mi st d0 (stepsGo mi st fuel d0) := by
  intro fuel
  induction fuel with
  | zero => intro d0; trivial
  | succ n ih =>
    intro d0
    simp only [stepsGo]
    by_cases h : mi ≤ d0 + min (mi - d0) st
    · simp [h, stepsChainFrom]
    · simp [h, stepsChainFrom]
      exact ih _

lemma stepsGo_fuel (mi st : Nat) (hst : 0 < st) :
    ∀ f1 f2 d0, d0 < mi → mi - d0 ≤ f1 → mi - d0 ≤ f2 →
      stepsGo mi st f1 d0 = stepsGo mi st f2 d0 := by
  intro f1
  induction f1 with
  | zero => intro f2 d0 h1 h2 h3; omega
  | succ n ih =>
    intro f2 d0 h1 h2 h3
    cases f2 with
    | zero => omega
    | succ m =>
      simp only [stepsGo]
      by_cases h : mi ≤ d0 + min (mi - d0) st
      · simp [h]
      · simp only [h, if_false, List.cons.injEq, true_and]
        exact ih m (d0 + min (mi - d0) st) (by omega) (by omega) (by omega)


/-- C2: for every `max_iter ≥ 1` and `step ≥ 1`, the generator returned by
`update_loop` terminates (its yield list is fuel-independent once the fuel
reaches `max_iter`) after exactly `⌈max_iter/step⌉ = (max_iter+step-1)/step`
yields; each yield advances `iterations_done` by
`min (max_iter - iterations_done) step`, `iterations_done` never exceeds
`max_iter`, the yielded progress ratios are strictly increasing and lie in
`(0, 1]`, and the final progress is exactly `1`; with `step = max_iter`
(as `__start` forces) the loop yields exactly once. -/
theorem update_loop_termination_spec {α γ β : Type}
    (tsne : TSNEParams → α → γ) (embedding_ : γ → β)
    (p : Nat) (X : α) (emb0 : β) (mi st : Nat)
    (hmi : 1 ≤ mi) (hst : 1 ≤ st) :
    (update_loop tsne embedding_ p X mi st emb0).length = (mi + st - 1) / st
    ∧ (∀ fuel, mi ≤ fuel →
        updateLoopGo tsne embedding_ X p mi st fuel 0
          = update_loop tsne embedding_ p X mi st emb0)
    ∧ stepsChainFrom mi st 0 (stepsList mi st)
    ∧ (∀ q ∈ stepsList mi st, q.2 ≤ mi)
    ∧ (update_loop tsne embedding_ p X mi st emb0).map Prod.snd
        = ((stepsList mi st).map Prod.snd).map
            (fun n : Nat => (n : ℚ) / (mi : ℚ))
    ∧ List.Chain' (· < ·)
        ((update_loop tsne embedding_ p X mi st emb0).map Prod.snd)
    ∧ (∀ r ∈ (update_loop tsne embedding_ p X mi st emb0).map Prod.snd,
        0 < r ∧ r ≤ 1)
    ∧ ((update_loop tsne embedding_ p X mi st emb0).map Prod.snd).getLast?
        = some 1
    ∧ (st = mi → (update_loop tsne embedding_ p X mi st emb0).length = 1) := by
  have hst' : 0 < st := hst
  have hmiq : (0 : ℚ) < (mi : ℚ) := by exact_mod_cast hmi
  have hmap := updateLoopGo_eq_stepsGo tsne embedding_ X p mi st mi 0
  have hlen0 := stepsGo_length mi st hst' mi 0 (by omega) (by omega)
  obtain ⟨hchain, hbound, hlast⟩ :=
    stepsGo_snd_spec mi st hst' mi 0 (by omega) (by omega)
  have hlen : (update_loop tsne embedding_ p X mi st emb0).length
      = (mi + st - 1) / st := by
    simp only [update_loop, hmap, List.length_map]
    rw [hlen0]
    congr 1
  have hsndeq : (update_loop tsne embedding_ p X mi st emb0).map Prod.snd
      = ((stepsList mi st).map Prod.snd).map
          (fun n : Nat => (n : ℚ) / (mi : ℚ)) := by
    simp only [update_loop, hmap, List.map_map]
    rfl
  have hpair : List.Pairwise (· < ·) (0 :: (stepsList mi st).map Prod.snd) :=
    List.chain_iff_pairwise.mp hchain
  have hCl : List.Chain' (· < ·) ((stepsList mi st).map Prod.snd) := by
    have h0 : List.Chain' (· < ·) (0 :: (stepsList mi st).map Prod.snd) :=
      hchain
    exact h0.tail
  have hCq : List.Chain' (· < ·)
      ((update_loop tsne embedding_ p X mi st emb0).map Prod.snd) := by
    rw [hsndeq, List.chain'_map]
    refine hCl.imp ?_
    intro a b hab
    have hq : (a : ℚ) < (b : ℚ) := by exact_mod_cast hab
    gcongr
  have hmem : ∀ r ∈ (update_loop tsne embedding_ p X mi st emb0).map Prod.snd,
      0 < r ∧ r ≤ 1 := by
    rw [hsndeq]
    intro r hr
    obtain ⟨n, hn, rfl⟩ := List.mem_map.mp hr
    have hpos : 0 < n := List.rel_of_pairwise_cons hpair hn
    have hle : n ≤ mi := hbound n hn
    constructor
    · exact div_pos (by exact_mod_cast hpos) hmiq
    · rw [div_le_one hmiq]
      exact_mod_cast hle
  have hlastq :
      ((update_loop tsne embedding_ p X mi st emb0).map Prod.snd).getLast?
        = some 1 := by
    have hlast' : ((stepsList mi st).map Prod.snd).getLast? = some mi := hlast
    rw [hsndeq, List.getLast?_map, hlast']
    simp only [Option.map_some']
    rw [div_self (ne_of_gt hmiq)]
  refine ⟨hlen, ?_, stepsGo_chainFrom mi st mi 0, ?_, hsndeq, hCq, hmem,
    hlastq, ?_⟩
  · intro fuel hf
    rw [updateLoopGo_eq_stepsGo, update_loop, updateLoopGo_eq_stepsGo,
        stepsGo_fuel mi st hst' fuel mi 0 (by omega) (by omega) (by omega)]
  · intro q hq
    have hq2 : q.2 ∈ (stepsList mi st).map Prod.snd :=
      List.mem_map_of_mem Prod.snd hq
    exact hbound q.2 hq2
  · intro hstmi
    rw [hlen, hstmi]
    apply Nat.div_eq_of_lt_le <;> omega

theorem update_loop_termination_spec_witness :
    (update_loop (fun _ _ => (0 : Nat)) (fun g : Nat => g) 30 (0 : Nat) 3 2
      (0 : Nat)).length = 2 := by
  have h := (update_loop_termination_spec (fun _ _ => (0 : Nat))
    (fun g : Nat => g) 30 0 0 3 2 (by decide) (by decide)).1
  simpa using h

/-- C3: every embedding yielded by the update loop is exactly the
`embedding_` attribute of a fit produced by the external
`Orange.projection.TSNE` called with `n_components = 2`, the widget's
perplexity, `init = "pca"` and `n_iter` equal to the current step's
`min (max_iter - iterations_done) step`; the loop performs no arithmetic of
its own on the embedding values (they are passed through as opaque values
of an arbitrary type `β`, and the generator's initial `embedding` argument
is never consulted). -/
theorem update_loop_delegates_tsne {α γ β : Type} (tsne : TSNEParams → α → γ)
    (embedding_ : γ → β) (p : Nat) (X : α) (mi st : Nat) (emb0 : β) :
    update_loop tsne embedding_ p X mi st emb0
      = (stepsList mi st).map
          (fun q => (embedding_ (tsne ⟨2, p, q.1, "pca"⟩ X),
            (q.2 : ℚ) / (mi : ℚ)))
    ∧ stepsChainFrom mi st 0 (stepsList mi st) :=
  ⟨updateLoopGo_eq_stepsGo tsne embedding_ X p mi st mi 0,
   stepsGo_chainFrom mi st mi 0⟩

/-! ### Widget state theorems -/

/-- A reachable-looking state with an installed generator, used by the
witnesses below. -/
def sampleRunning : WState :=
  { initState with gen := some 0, next_gen := 1, rstate := RunState.Running }

/-- C4: with no update loop installed `__next_step` does nothing; with a
loop installed it first clears the `out_of_memory` and
`optimization_error` messages, then: on a yield it stores the embedding,
sets the progress bar to `100 * progress`, redraws the plot and restarts
the timer (the loop stays installed); on exhaustion it clears the loop,
unconditionally commits the outputs and redraws the plot; on `MemoryError`
it shows `out_of_memory` and clears the loop; on any other exception it
shows `optimization_error` with the exception's text and clears the loop. -/
theorem next_step_spec (s : WState) :
    (s.gen = none → ∀ adv, nextStep s adv = s)
    ∧ (s.gen ≠ none →
        (∀ e q, (nextStep s (AdvResult.yielded e q)).err_out_of_memory = false
          ∧ (nextStep s (AdvResult.yielded e q)).err_optimization = none
          ∧ (nextStep s (AdvResult.yielded e q)).embedding = some e
          ∧ (nextStep s (AdvResult.yielded e q)).pb = PBStat.at_ (100 * q)
          ∧ (nextStep s (AdvResult.yielded e q)).plot_draws = s.plot_draws + 1
          ∧ (nextStep s (AdvResult.yielded e q)).timer_on = true
          ∧ (nextStep s (AdvResult.yielded e q)).gen = s.gen)
        ∧ ((nextStep s AdvResult.stopped).err_out_of_memory = false
          ∧ (nextStep s AdvResult.stopped).err_optimization = none
          ∧ (nextStep s AdvResult.stopped).gen = none
          ∧ (nextStep s AdvResult.stopped).ucommit_count = s.ucommit_count + 1
          ∧ (nextStep s AdvResult.stopped).plot_draws = s.plot_draws + 1)
        ∧ ((nextStep s AdvResult.memErr).err_out_of_memory = true
          ∧ (nextStep s AdvResult.memErr).err_optimization = none
          ∧ (nextStep s AdvResult.memErr).gen = none)
        ∧ (∀ m, (nextStep s (AdvResult.raised m)).err_optimization = some m
          ∧ (nextStep s (AdvResult.raised m)).err_out_of_memory = false
          ∧ (nextStep s (AdvResult.raised m)).gen = none)) := by
  constructor
  · intro h adv
    simp [nextStep, h]
  · intro h
    obtain ⟨g, hg⟩ := Option.ne_none_iff_exists'.mp h
    refine ⟨?_, ?_, ?_, ?_⟩ <;>
      simp [nextStep, hg, set_update_loop]

theorem next_step_spec_witness :
    (nextStep sampleRunning (AdvResult.yielded 7 1)).embedding = some 7 := by
  have h := (next_step_spec sampleRunning).2 (by decide)
  exact (h.1 7 1).2.2.1

/-- C5: whenever the widget state is `Running`, `stop` closes the installed
update-loop generator, stops the timer, finishes the progress bar, clears
the status message, relabels the run button `Start`, unblocks the widget
and moves the state to `Finished`; in the `Waiting` or `Finished` state
`stop` changes nothing.  The run button toggles: pressed while `Running`
it stops and re-commits the output, otherwise it starts. -/
theorem stop_interrupt_spec (s : WState) :
    (∀ g, s.gen = some g → s.rstate = RunState.Running →
      (stopW s).closed = g :: s.closed
      ∧ (stopW s).gen = none
      ∧ (stopW s).timer_on = false
      ∧ (stopW s).pb = PBStat.finished
      ∧ (stopW s).status_msg = ""
      ∧ (stopW s).button_label = "Start"
      ∧ (stopW s).blocking = false
      ∧ (stopW s).rstate = RunState.Finished)
    ∧ ((s.rstate = RunState.Waiting ∨ s.rstate = RunState.Finished) →
        stopW s = s)
    ∧ (s.rstate = RunState.Running →
        toggle_run s
          = { stopW s with commit_count := (stopW s).commit_count + 1 })
    ∧ (s.rstate ≠ RunState.Running → toggle_run s = startW s) := by
  refine ⟨?_, ?_, ?_, ?_⟩
  · intro g hg hr
    simp [stopW, hr, set_update_loop, hg]
  · intro h
    have hr : s.rstate ≠ RunState.Running := by
      rcases h with h | h <;> simp [h]
    simp [stopW, hr]
  · intro hr
    simp [toggle_run, hr]
  · intro hr
    simp [toggle_run, hr]

theorem stop_interrupt_spec_witness :
    (stopW sampleRunning).closed = [0] := by
  have h := (stop_interrupt_spec sampleRunning).1 0 rfl rfl
  exact h.1

/-- C6: `_initialize` with no input data only clears state and returns;
with input data whose domain has at least one attribute it sets
`effective_matrix` to the external PCA model — fitted with
`n_components = pca_components` on the data — applied to that same data;
with an attribute-free domain it shows the `no_attributes` error and
leaves `effective_matrix` cleared. -/
theorem initialize_pca_spec (pca papply : Nat → PyTable → Nat) (s : WState) :
    (s.signal_data = none →
      initializeW pca papply s
        = { clearW s with
            err_not_enough_rows := false, err_no_attributes := false,
            err_out_of_memory := false, err_optimization := none,
            data := none, effective_matrix := none, embedding := none })
    ∧ (∀ d, s.signal_data = some d → d.n_attrs ≠ 0 →
        (initializeW pca papply s).effective_matrix
            = some (papply (pca s.pca_components d) d)
        ∧ (initializeW pca papply s).err_no_attributes = false
        ∧ (initializeW pca papply s).data = some d)
    ∧ (∀ d, s.signal_data = some d → d.n_attrs = 0 →
        (initializeW pca papply s).err_no_attributes = true
        ∧ (initializeW pca papply s).effective_matrix = none
        ∧ (initializeW pca papply s).data = some d) := by
  refine ⟨?_, ?_, ?_⟩
  · intro h
    cases hg : s.gen <;>
      simp [initializeW, clearW, set_update_loop, hg, h]
  · intro d hd hattrs
    cases hg : s.gen <;>
      simp [initializeW, clearW, set_update_loop, hg, hd, hattrs]
  · intro d hd hattrs
    cases hg : s.gen <;>
      simp [initializeW, clearW, set_update_loop, hg, hd, hattrs]

theorem initialize_pca_spec_witness :
    (initializeW (fun n t => n * 100 + t.tid) (fun m t => m + t.n_attrs)
      { initState with signal_data := some ⟨3, 5⟩ }).effective_matrix
      = some 1008 := by
  have h := (initialize_pca_spec (fun n t => n * 100 + t.tid)
    (fun m t => m + t.n_attrs)
    { initState with signal_data := some ⟨3, 5⟩ }).2.1 ⟨3, 5⟩ rfl (by decide)
  rw [h.1]
  rfl


/-- C9: in every widget state reachable through `__init__`,
`__set_update_loop`, `_clear`, `start`, `stop`, `__start` and
`__next_step`, an update-loop generator is installed exactly when the
state is `Running`; installing a generator via `__set_update_loop` always
leaves the state `Running`, the widget blocked and the button reading
`Stop`, and clearing always leaves no generator, the widget unblocked and
the button reading `Start`. -/
theorem loop_state_invariant :
    (∀ s, Reach s → (s.gen ≠ none ↔ s.rstate = RunState.Running))
    ∧ (∀ s l, (set_update_loop s (some l)).rstate = RunState.Running
        ∧ (set_update_loop s (some l)).blocking = true
        ∧ (set_update_loop s (some l)).button_label = "Stop"
        ∧ (set_update_loop s (some l)).gen = some l)
    ∧ (∀ s, (set_update_loop s none).gen = none
        ∧ (set_update_loop s none).blocking = false
        ∧ (set_update_loop s none).button_label = "Start") := by
  have hset : ∀ (s : WState) (l : Nat),
      (set_update_loop s (some l)).rstate = RunState.Running
      ∧ (set_update_loop s (some l)).blocking = true
      ∧ (set_update_loop s (some l)).button_label = "Stop"
      ∧ (set_update_loop s (some l)).gen = some l := by
    intro s l
    cases hg : s.gen <;> simp [set_update_loop, hg]
  have hnone : ∀ t : WState, (set_update_loop t none).gen = none
      ∧ (set_update_loop t none).rstate = RunState.Finished
      ∧ (set_update_loop t none).blocking = false
      ∧ (set_update_loop t none).button_label = "Start" := by
    intro t
    cases hg : t.gen <;> simp [set_update_loop, hg]
  have hpriv : ∀ t : WState, (startPriv t).gen = some t.next_gen
      ∧ (startPriv t).rstate = RunState.Running := by
    intro t
    cases hg : t.gen <;> simp [startPriv, set_update_loop, hg]
  have hclearW : ∀ t : WState, (clearW t).gen = none
      ∧ (clearW t).rstate = RunState.Waiting := by
    intro t
    cases hg : t.gen <;> simp [clearW, set_update_loop, hg]
  refine ⟨?_, hset, fun s => ⟨(hnone s).1, (hnone s).2.2.1, (hnone s).2.2.2⟩⟩
  intro s hs
  induction hs with
  | init => simp [initState]
  | set_loop l hs ih =>
    rename_i s'
    cases l with
    | none => simp [(hnone s').1, (hnone s').2.1]
    | some g => simp [(hset s' g).1, (hset s' g).2.2.2]
  | clear hs ih =>
    rename_i s'
    simp [(hclearW s').1, (hclearW s').2]
  | start hs ih =>
    rename_i s'
    cases hrs : s'.rstate with
    | Running => simp [startW, hrs, ih, hrs]
    | Finished => simp [startW, hrs, (hpriv s').1, (hpriv s').2]
    | Waiting =>
      by_cases hem : s'.effective_matrix = none
      · simp [startW, hrs, hem, ih]
      · simp [startW, hrs, hem, (hpriv s').1, (hpriv s').2]
  | stop hs ih =>
    rename_i s'
    cases hrs : s'.rstate with
    | Running => simp [stopW, hrs, (hnone s').1, (hnone s').2.1]
    | Finished => simp [stopW, hrs, ih]
    | Waiting => simp [stopW, hrs, ih]
  | startP hs ih =>
    rename_i s'
    simp [(hpriv s').1, (hpriv s').2]
  | next adv hs ih =>
    rename_i s'
    cases hg : s'.gen with
    | none =>
      have hrs : s'.rstate ≠ RunState.Running := by
        intro hr
        exact absurd hg ((ih.mpr hr) ∘ (fun h => h))
      simp only [nextStep, hg]
      rw [hg] at ih
      simpa using ih
    | some g =>
      have hrun : s'.rstate = RunState.Running := by
        rw [← ih, hg]
        simp
      cases adv with
      | yielded e q => simp [nextStep, hg, hrun]
      | stopped =>
        simp only [nextStep, hg]
        constructor
        · intro h
          exact absurd (hnone _).1 h
        · intro hr
          rw [(hnone _).2.1] at hr
          cases hr
      | memErr =>
        simp only [nextStep, hg]
        constructor
        · intro h
          exact absurd (hnone _).1 h
        · intro hr
          rw [(hnone _).2.1] at hr
          cases hr
      | raised m =>
        simp only [nextStep, hg]
        constructor
        · intro h
          exact absurd (hnone _).1 h
        · intro hr
          rw [(hnone _).2.1] at hr
          cases hr

theorem loop_state_invariant_witness :
    (initState.gen ≠ none ↔ initState.rstate = RunState.Running) :=
  loop_state_invariant.1 initState Reach.init

/-- Sizes produced by the `size_index = -1` branch carry no NaN, so the
replacement pass leaves them untouched and shows no message. -/
lemma fixNans_replicate (ms pw : ℚ) (n : Nat) :
    fixNans ms (List.replicate n (SizeVal.num pw)) = (List.replicate n pw, false) := by
  simp [fixNans, List.any_eq_false, List.mem_replicate]

/-- C10: rendering is delegated.  `OWMDSGraph.update_data` always first
calls the scatter-plot base class's `update_data` (with the attributes and
`reset_view` passed through) and afterwards hides the left and bottom plot
axes and locks the aspect ratio to `1`; the constructor likewise hides
both axes after delegating construction to the base class. -/
theorem graph_render_delegation (attr_x attr_y : String) (reset_view : Bool)
    (name : String) :
    update_data_events attr_x attr_y reset_view
      = GEvent.base_update attr_x attr_y reset_view
        :: [GEvent.hide_axis "left", GEvent.hide_axis "bottom",
            GEvent.aspect_locked 1]
    ∧ graph_init_events name
      = GEvent.base_init name
        :: [GEvent.hide_axis "left", GEvent.hide_axis "bottom"] :=
  ⟨rfl, rfl⟩

/-- C8: `compute_sizes` is not total over the size-attribute selections.
Selecting the added `Stress` option makes `get_size_index` return `-2`,
and the `-2` branch of `compute_sizes` evaluates `stress(...)` — a name
that is neither defined in the module nor imported by it — so the call
raises `NameError` instead of producing min-max-scaled stress sizes.  The
`-1` branch does behave as the claim says: every size is `point_width`
and no `missing_size` message is shown. -/
theorem compute_sizes_stress_name_error (n_points : Nat)
    (point_width minShapeSize : ℚ) (scaled_row : List SizeVal) (base : Int) :
    get_size_index (some "Stress") base = -2
    ∧ compute_sizes (-2) n_points point_width minShapeSize scaled_row
        = Except.error "NameError: name 'stress' is not defined"
    ∧ compute_sizes (-1) n_points point_width minShapeSize scaled_row
        = Except.ok (List.replicate n_points point_width, false) := by
  refine ⟨rfl, rfl, ?_⟩
  simp [compute_sizes, fixNans_replicate]

/-! ### Lemmas about the renaming helpers -/

lemma patPre_some_iff (p : PyStr) : ∀ (x r : PyStr),
    patPre p x = some r ↔
      ∃ body, x = body ++ r ∧
        List.Forall₂ (fun pc xc => (pc = '.' ∧ xc ≠ '\n') ∨ pc = xc) p body := by
  induction p with
  | nil =>
    intro x r
    simp [patPre, List.forall₂_nil_left_iff, eq_comm]
  | cons pc ps ih =>
    intro x r
    cases x with
    | nil =>
      simp only [patPre]
      constructor
      · intro h
        cases h
      · rintro ⟨body, hx, hf⟩
        rcases List.forall₂_cons_left_iff.mp hf with ⟨b, u, _, _, rfl⟩
        cases hx
    | cons c cs =>
      simp only [patPre]
      by_cases hc : (pc = '.' ∧ c ≠ '\n') ∨ pc = c
      · rw [if_pos hc, ih cs r]
        constructor
        · rintro ⟨body, hx, hf⟩
          exact ⟨c :: body, by simp [hx], List.Forall₂.cons hc hf⟩
        · rintro ⟨body, hx, hf⟩
          rcases List.forall₂_cons_left_iff.mp hf with ⟨b, u, hr, hf', rfl⟩
          obtain ⟨hcb, hcs⟩ : c = b ∧ cs = u ++ r := by
            simpa using hx
          subst hcb
          exact ⟨u, hcs, hf'⟩
      · rw [if_neg hc]
        constructor
        · intro h
          cases h
        · rintro ⟨body, hx, hf⟩
          rcases List.forall₂_cons_left_iff.mp hf with ⟨b, u, hr, hf', rfl⟩
          obtain ⟨hcb, hcs⟩ : c = b ∧ cs = u ++ r := by
            simpa using hx
          subst hcb
          exact absurd hr hc

lemma matchIndex_some_iff (name x : PyStr) (k : Nat) :
    matchIndex name x = some k ↔
      ∃ ds : PyStr, ds ≠ [] ∧ ds.all Char.isDigit = true ∧ decValue ds = k ∧
        ∃ body, x = body ++ [' ', '('] ++ ds ++ [')'] ∧
          List.Forall₂ (fun pc xc => (pc = '.' ∧ xc ≠ '\n') ∨ pc = xc)
            name body := by
  constructor
  · intro h
    cases hp : patPre name x with
    | none =>
      rw [matchIndex, hp] at h
      cases h
    | some rest =>
      rw [matchIndex, hp] at h
      cases rest with
      | nil => cases h
      | cons sp rest1 =>
        cases rest1 with
        | nil => cases h
        | cons op rest2 =>
          simp only [] at h
          split at h
          case isFalse => cases h
          case isTrue hcond =>
            obtain ⟨hsp, hop, hlastp, hne, hdig⟩ := hcond
            injection h with hk
            have h0 : rest2 ≠ [] := by
              intro hh
              rw [hh] at hlastp
              cases hlastp
            have hrest2 : rest2 = rest2.dropLast ++ [')'] := by
              conv_lhs => rw [← List.dropLast_append_getLast h0]
              have hl := List.getLast?_eq_getLast rest2 h0
              rw [hl] at hlastp
              injection hlastp with hl2
              rw [hl2]
            obtain ⟨body, hx, hf⟩ := (patPre_some_iff name x _).mp hp
            refine ⟨rest2.dropLast, hne, hdig, hk, body, ?_, hf⟩
            rw [hx, hsp, hop]
            conv_lhs => rw [hrest2]
            simp
  · rintro ⟨ds, hne, hdig, hdec, body, hx, hf⟩
    have hp : patPre name x = some (' ' :: '(' :: (ds ++ [')'])) := by
      apply (patPre_some_iff name x _).mpr
      refine ⟨body, ?_, hf⟩
      rw [hx]
      simp
    rw [matchIndex, hp]
    simp [List.getLast?_concat, List.dropLast_concat, hne, hdig, hdec]

lemma mem_get_indices_iff (names : List PyStr) (name : PyStr) (k : Nat) :
    k ∈ get_indices names name ↔ PatOccurs names name k := by
  simp only [get_indices, List.mem_filterMap, matchIndex_some_iff, PatOccurs]

lemma forall2_lit (p : PyStr) (hp : ∀ c ∈ p, c ≠ '.') :
    ∀ body, List.Forall₂ (fun pc xc => (pc = '.' ∧ xc ≠ '\n') ∨ pc = xc) p body →
      body = p := by
  induction p with
  | nil =>
    intro body hf
    rw [List.forall₂_nil_left_iff] at hf
    exact hf
  | cons a t ih =>
    intro body hf
    rcases List.forall₂_cons_left_iff.mp hf with ⟨b, u, hr, hf', rfl⟩
    have hab : a = b := by
      rcases hr with ⟨hdot, _⟩ | h
      · exact absurd hdot (hp a (List.mem_cons_self a t))
      · exact h
    rw [ih (fun c hc => hp c (List.mem_cons_of_mem a hc)) u hf', ← hab]

/-- On metacharacter-free names the modelled pattern matching is exact
string equality: the regex-derived occurrence predicate collapses to the
claim's literal one. -/
lemma patOccurs_iff_indexOccurs (names : List PyStr) (p : PyStr)
    (hp : ∀ c ∈ p, c ≠ '.') (k : Nat) :
    PatOccurs names p k ↔ IndexOccurs names p k := by
  constructor
  · rintro ⟨x, hx, ds, hne, hdig, hdec, body, rfl, hf⟩
    have hb : body = p := forall2_lit p hp body hf
    subst hb
    exact ⟨ds, hne, hdig, hdec, hx⟩
  · rintro ⟨ds, hne, hdig, hdec, hmem⟩
    refine ⟨p ++ [' ', '('] ++ ds ++ [')'], hmem, ds, hne, hdig, hdec,
      p, rfl, ?_⟩
    rw [List.forall₂_same]
    intro c hc
    right
    rfl

lemma le_foldl_max (l : List Nat) (b : Nat) : b ≤ l.foldl max b := by
  induction l generalizing b with
  | nil => simp
  | cons a t ih =>
    simp only [List.foldl_cons]
    exact le_trans (le_max_left b a) (ih (max b a))

lemma mem_le_foldl_max (l : List Nat) : ∀ (b n : Nat), n ∈ l → n ≤ l.foldl max b := by
  induction l with
  | nil =>
    intro b n h
    cases h
  | cons a t ih =>
    intro b n h
    rcases List.mem_cons.mp h with rfl | h'
    · simp only [List.foldl_cons]
      exact le_trans (le_max_right b n) (le_foldl_max t _)
    · simp only [List.foldl_cons]
      exact ih (max b a) n h'

lemma foldl_max_choice (l : List Nat) : ∀ b : Nat, l.foldl max b = b ∨ l.foldl max b ∈ l := by
  induction l with
  | nil =>
    intro b
    left
    rfl
  | cons a t ih =>
    intro b
    simp only [List.foldl_cons]
    rcases ih (max b a) with h | h
    · rcases max_choice b a with hh | hh
      · left
        rw [h, hh]
      · right
        rw [h, hh]
        exact List.mem_cons_self a t
    · right
      exact List.mem_cons_of_mem a h

lemma pymax_mem (l : List Nat) (d : Nat) (h : l ≠ []) : pymax l d ∈ l := by
  cases l with
  | nil => cases h rfl
  | cons a t =>
    simp only [pymax]
    rcases foldl_max_choice t a with h1 | h1
    · rw [h1]
      exact List.mem_cons_self a t
    · exact List.mem_cons_of_mem a h1

lemma le_pymax (l : List Nat) (d n : Nat) (h : n ∈ l) : n ≤ pymax l d := by
  cases l with
  | nil => cases h
  | cons a t =>
    simp only [pymax]
    rcases List.mem_cons.mp h with rfl | h'
    · exact le_foldl_max t n
    · exact mem_le_foldl_max t a n h'

/-- C7 (amended): `get_unique_names` returns the proposed list unchanged
when no proposed name occurs verbatim among the existing names (no regex
is evaluated in that case).  Otherwise the common index is computed by
regex matching with each proposed name interpolated *verbatim* into the
pattern, so regex metacharacters in a proposed name are live and an
ill-formed name raises `re.error`; restricted to proposed names free of
regex metacharacters and to existing names of newline-free ASCII text —
the fragment on which the interpolated pattern provably means literal
matching — every proposed name is renamed to `name (M+1)` with one common
index, where `M` is the maximum over all proposed names of the indices `k`
such that some existing name is exactly `name (k)` (the digits of `k`
possibly carrying leading zeros), taking `1` for a proposed name with no
such occurrence (so a collision with an un-indexed existing name yields
suffix `(2)`).  The metacharacter hypothesis is what collapses the
modelled matching to string equality; the ASCII/newline-free hypothesis
does no logical work in the model and is stated to scope the claim to
where the embedding of `\d` and `$` is faithful to Python. -/
theorem get_unique_names_spec (names proposed : List PyStr)
    (hpl : ∀ p ∈ proposed, ∀ c ∈ p, ¬ regexSpecial c)
    (_hnl : ∀ x ∈ names, ∀ c ∈ x, c.toNat < 128 ∧ c ≠ '\n') :
    ((∀ p ∈ proposed, p ∉ names) → get_unique_names names proposed = proposed)
    ∧ ((∃ p ∈ proposed, p ∈ names) →
        ∃ M : Nat,
          get_unique_names names proposed
            = proposed.map (fun n => fmtName n (M + 1))
          ∧ (∀ p ∈ proposed, ∀ k, IndexOccurs names p k → k ≤ M)
          ∧ (∀ p ∈ proposed, (∀ k, ¬ IndexOccurs names p k) → 1 ≤ M)
          ∧ (∃ p ∈ proposed, IndexOccurs names p M
              ∨ ((∀ k, ¬ IndexOccurs names p k) ∧ M = 1))) := by
  have hdot : ∀ p ∈ proposed, ∀ c ∈ p, c ≠ '.' := by
    intro p hpm c hc h
    exact hpl p hpm c hc (h.symm ▸ (show regexSpecial '.' by decide))
  have hIdx : ∀ p ∈ proposed, ∀ k,
      (k ∈ get_indices names p ↔ IndexOccurs names p k) := by
    intro p hpm k
    exact (mem_get_indices_iff names p k).trans
      (patOccurs_iff_indexOccurs names p (hdot p hpm) k)
  constructor
  · intro h
    have hf : proposed.filter (fun n => decide (n ∈ names)) = [] := by
      rw [List.filter_eq_nil_iff]
      intro a ha
      simp [h a ha]
    simp [get_unique_names, hf]
  · rintro ⟨p0, hp0, hp0n⟩
    have hfne : (proposed.filter (fun n => decide (n ∈ names))).length ≠ 0 := by
      have hmem : p0 ∈ proposed.filter (fun n => decide (n ∈ names)) := by
        rw [List.mem_filter]
        exact ⟨hp0, by simpa using hp0n⟩
      have := List.length_pos.mpr (List.ne_nil_of_mem hmem)
      omega
    refine ⟨pymax (proposed.map (fun n => pymax (get_indices names n) 1)) 1,
      ?_, ?_, ?_, ?_⟩
    · simp [get_unique_names, hfne]
    · intro p hp k hk
      have hk2 : k ∈ get_indices names p := (hIdx p hp k).mpr hk
      have h1 : k ≤ pymax (get_indices names p) 1 := le_pymax _ _ _ hk2
      have h2 : pymax (get_indices names p) 1
          ∈ proposed.map (fun n => pymax (get_indices names n) 1) :=
        List.mem_map_of_mem _ hp
      exact le_trans h1 (le_pymax _ _ _ h2)
    · intro p hp hnone
      have hempty : get_indices names p = [] := by
        cases hgi : get_indices names p with
        | nil => rfl
        | cons a t =>
          have hma : a ∈ get_indices names p := by
            rw [hgi]
            exact List.mem_cons_self a t
          exact absurd ((hIdx p hp a).mp hma) (hnone a)
      have h2 : pymax (get_indices names p) 1
          ∈ proposed.map (fun n => pymax (get_indices names n) 1) :=
        List.mem_map_of_mem _ hp
      have h3 : pymax (get_indices names p) 1 = 1 := by
        rw [hempty]
        rfl
      rw [h3] at h2
      exact le_pymax _ _ _ h2
    · have hmapne : proposed.map (fun n => pymax (get_indices names n) 1) ≠ [] := by
        intro hnil
        rw [List.map_eq_nil_iff] at hnil
        rw [hnil] at hp0
        cases hp0
      obtain ⟨p, hp, hpM⟩ :=
        List.mem_map.mp (pymax_mem _ 1 hmapne)
      refine ⟨p, hp, ?_⟩
      cases hgi : get_indices names p with
      | nil =>
        right
        constructor
        · intro k hk
          have hmk : k ∈ get_indices names p := (hIdx p hp k).mpr hk
          rw [hgi] at hmk
          cases hmk
        · rw [← hpM, hgi]
          rfl
      | cons a t =>
        left
        have hMgi : pymax (proposed.map (fun n => pymax (get_indices names n) 1)) 1
            ∈ get_indices names p := by
          rw [← hpM]
          apply pymax_mem
          rw [hgi]
          simp
        exact (hIdx p hp _).mp hMgi

theorem get_unique_names_spec_witness :
    get_unique_names ["abc".toList] ["tsne-x".toList, "tsne-y".toList]
      = ["tsne-x".toList, "tsne-y".toList] :=
  (get_unique_names_spec ["abc".toList] ["tsne-x".toList, "tsne-y".toList]
    (by decide) (by decide)).1 (by decide)

/-- Counterexample to C7 as stated: the claim reads indices off existing
names that are *exactly* `name (k)`, but the source interpolates the
proposed name unescaped into a regex, so `.` in a proposed name acts as a
wildcard.  With existing names `axb (3)` and `a.b` and proposed name
`a.b`, no existing name is exactly `a.b (k)` for any `k`, so the claim
predicts the common index `1 + 1 = 2` and output `a.b (2)`; the code's
regex matches `axb (3)`, takes `max_index = 3`, and returns `a.b (4)`. -/
theorem get_unique_names_exact_match_cex :
    (("a.b".toList : PyStr) ∈ (["axb (3)".toList, "a.b".toList] : List PyStr))
    ∧ (∀ k, ¬ IndexOccurs ["axb (3)".toList, "a.b".toList] ("a.b".toList) k)
    ∧ get_unique_names ["axb (3)".toList, "a.b".toList] ["a.b".toList]
        = ["a.b (4)".toList]
    ∧ (["a.b (4)".toList] : List PyStr) ≠ (["a.b (2)".toList] : List PyStr) := by
  refine ⟨by decide, ?_, by decide, by decide⟩
  rintro k ⟨ds, hne, hdig, hdec, hmem⟩
  have hrw : ("a.b".toList : PyStr) ++ [' ', '('] ++ ds ++ [')']
      = 'a' :: '.' :: 'b' :: ' ' :: '(' :: (ds ++ [')']) := by
    simp
  rw [hrw] at hmem
  rcases List.mem_cons.mp hmem with h | h
  · have hx : ("axb (3)".toList : PyStr)
        = 'a' :: 'x' :: 'b' :: ' ' :: '(' :: '3' :: ')' :: [] := rfl
    rw [hx] at h
    injection h with h1 h
    injection h with h2 h
    exact absurd h2 (by decide)
  · rcases List.mem_cons.mp h with h | h
    · have hx : ("a.b".toList : PyStr) = 'a' :: '.' :: 'b' :: [] := rfl
      rw [hx] at h
      injection h with h1 h
      injection h with h2 h
      injection h with h3 h
      cases h
    · cases h

/-- Counterexample to C1 as stated: `get_unique_names` is not glue that
passes its data through — on the widget's own proposed names it returns a
list that is neither of its inputs, and its output changes when the
existing-names input changes, because the common suffix index is computed
(by `get_indices` and the max-fold) inside this module rather than
delegated. -/
theorem helpers_not_glue_cex :
    get_unique_names ["tsne-x".toList] ["tsne-x".toList, "tsne-y".toList]
      ≠ ["tsne-x".toList, "tsne-y".toList]
    ∧ get_unique_names ["tsne-x".toList] ["tsne-x".toList, "tsne-y".toList]
      ≠ get_unique_names ["tsne-x".toList, "tsne-x (4)".toList]
          ["tsne-x".toList, "tsne-y".toList] := by
  exact ⟨by decide, by decide⟩

/-- C1 (amended): the optimization, the PCA preprocessing and the
rendering are delegated to external libraries (see the update-loop,
`_initialize` and `OWMDSGraph` theorems), but the repository is not
entirely free of independently implemented algorithms: the module-level
helpers `get_indices` and `get_unique_names` implement a small renaming
algorithm of their own, extracting parenthesised indices from the
existing names and renaming every proposed name with one plus their
maximum (defaulting to 1), with no external call involved. -/
theorem independent_renaming_algorithm :
    get_unique_names [] ["tsne-x".toList, "tsne-y".toList]
      = ["tsne-x".toList, "tsne-y".toList]
    ∧ get_unique_names ["tsne-x".toList] ["tsne-x".toList, "tsne-y".toList]
      = ["tsne-x (2)".toList, "tsne-y (2)".toList]
    ∧ get_unique_names ["tsne-x".toList, "tsne-x (4)".toList]
        ["tsne-x".toList, "tsne-y".toList]
      = ["tsne-x (5)".toList, "tsne-y (5)".toList]
    ∧ get_indices ["tsne-x (4)".toList, "tsne-x".toList, "tsne-x (7)".toList]
        ("tsne-x".toList) = [4, 7] := by
  exact ⟨by decide, by decide, by decide, by decide⟩
